import Mathlib

/-!
Shallow embedding of the repository-intelligence analysis core
(`src/analyze_repos.py`, `src/utils/github.py`, `src/generate_reports.py`).

Python strings are modelled as `List Char` (ASCII fragment: `str.lower`
is per-character `Char.toLower`, which agrees with Python on ASCII, the
only range the analysed vocabularies and corpora use).  Python dicts that
the code iterates or mutates are modelled as association lists preserving
Python's insertion-order semantics.
-/

/-- Python strings, as lists of characters. -/
abbrev Str : Type := List Char

/-- Python `str.lower()` (ASCII fragment), applied character-wise. -/
def lowerStr (l : Str) : Str := l.map Char.toLower

/-- Python `pat in content` on strings: plain substring containment. -/
def containsSub (pat l : Str) : Bool := l.tails.any (fun t => pat.isPrefixOf t)

/-- Adding an element to a Python `set`, modelled as an ordered
duplicate-free list: a no-op when already present, else appended. -/
def addTag (t : Str) (acc : List Str) : List Str :=
  if t ∈ acc then acc else acc ++ [t]

/-- `analyze_repos.py`: the fields of the per-repository JSON record that
`detect_tech_stack` and `estimate_project_maturity` read.  `languages` is
the key list of the languages mapping; `sentry` / `snyk` are the two
service flags the estimator reads (`services.get('sentry', False)`,
`services.get('snyk', False)`). -/
structure RepoData where
  languages : List Str
  readme : Str
  techbragging : Str
  config_files : List Str
  sentry : Bool
  snyk : Bool

/-- The merged corpus `repo_data.get('readme','') + ' ' + repo_data.get('techbragging','')`,
lowercased (`content.lower()`), from `detect_tech_stack`. -/
def corpus (r : RepoData) : Str := lowerStr (r.readme ++ [' '] ++ r.techbragging)

/-- The pattern the keyword loop of `detect_tech_stack` actually searches
for.  The source builds the regex `r'\\b' + re.escape(keyword.lower()) + r'\\b'`;
because `r'\\b'` is a *raw* string, the regex engine sees an escaped
backslash followed by a literal `b`, so the whole pattern (every
character being escaped or literal) matches exactly the literal text
`\b<keyword>\b`, where `\` is the backslash character — not a word
boundary. -/
def keywordPattern (kw : Str) : Str :=
  '\\' :: 'b' :: (lowerStr kw ++ ['\\', 'b'])

/-- `re.search(r'\\b' + re.escape(keyword.lower()) + r'\\b', content)`
viewed as a boolean: literal containment of `keywordPattern`. -/
def keywordSearch (kw content : Str) : Bool := containsSub (keywordPattern kw) content

/-- The fixed `frameworks` alias table of `detect_tech_stack`, in source
order. -/
def frameworks : List (Str × List Str) :=
  [("react".toList, ["react".toList, "jsx".toList, "react-dom".toList, "react native".toList, "nextjs".toList, "next.js".toList]),
   ("vue".toList, ["vue".toList, "vuejs".toList, "vue.js".toList, "nuxt".toList]),
   ("angular".toList, ["angular".toList, "angularjs".toList, "ng-".toList]),
   ("django".toList, ["django".toList, "djangorestframework".toList]),
   ("flask".toList, ["flask".toList, "flask-".toList]),
   ("fastapi".toList, ["fastapi".toList, "fast-api".toList]),
   ("express".toList, ["express".toList, "expressjs".toList, "express.js".toList]),
   ("spring".toList, ["spring boot".toList, "spring framework".toList]),
   ("aws".toList, ["aws".toList, "amazon web services".toList, "s3".toList, "ec2".toList, "lambda".toList, "dynamodb".toList]),
   ("azure".toList, ["azure".toList, "microsoft azure".toList]),
   ("gcp".toList, ["gcp".toList, "google cloud".toList, "google cloud platform".toList]),
   ("kubernetes".toList, ["kubernetes".toList, "k8s".toList, "kubectl".toList]),
   ("docker".toList, ["docker".toList, "containerization".toList, "containerised".toList]),
   ("terraform".toList, ["terraform".toList, "terragrunt".toList]),
   ("mongodb".toList, ["mongodb".toList, "mongo".toList]),
   ("postgresql".toList, ["postgresql".toList, "postgres".toList]),
   ("mysql".toList, ["mysql".toList]),
   ("redis".toList, ["redis".toList]),
   ("graphql".toList, ["graphql".toList, "apollo".toList]),
   ("tailwind".toList, ["tailwind".toList, "tailwindcss".toList, "tailwind css".toList]),
   ("bootstrap".toList, ["bootstrap css".toList, "bootstrap framework".toList]),
   ("webpack".toList, ["webpack".toList]),
   ("vite".toList, ["vite".toList]),
   ("jest".toList, ["jest".toList, "jest testing".toList]),
   ("cypress".toList, ["cypress".toList, "cypress.io".toList]),
   ("github actions".toList, ["github actions".toList, "github workflow".toList])]

/-- The framework inner loop: `for keyword in keywords: if keyword in
content: tech_stack.add(tech); break` — stops at the first alias that is
a substring of the corpus. -/
def firstAliasHit (aliases : List Str) (content : Str) : Bool :=
  match aliases with
  | [] => false
  | a :: rest => if containsSub a content then true else firstAliasHit rest content

/-- `detect_tech_stack(repo_data, config)`: language keys lowercased,
then the configured keyword vocabulary via the (broken) word-boundary
regex, then the framework alias table via plain substring containment.
The Python `set` is modelled as an insertion-ordered duplicate-free
list. -/
def detect_tech_stack (r : RepoData) (keywords : List Str) : List Str :=
  let base := r.languages.foldl (fun acc lang => addTag (lowerStr lang) acc) []
  let c := corpus r
  let afterKw := keywords.foldl
    (fun acc kw => if keywordSearch kw c then addTag (lowerStr kw) acc else acc) base
  frameworks.foldl
    (fun acc p => if firstAliasHit p.2 c then addTag p.1 acc else acc) afterKw

/-- The lowercased config-file path list
`[f.get('path', '').lower() for f in config_files]` of
`estimate_project_maturity`. -/
def config_file_paths (r : RepoData) : List Str := r.config_files.map lowerStr

/-- `deploy_files`: lowercased config paths containing one of the
deployment markers. -/
def deploy_files (r : RepoData) : List Str :=
  (config_file_paths r).filter (fun f =>
    containsSub ("deploy".toList) f || containsSub ("production".toList) f ||
    containsSub ("kubernetes".toList) f || containsSub ("k8s".toList) f ||
    containsSub ("cloudflare".toList) f)

/-- `test_files`: lowercased config paths containing one of the testing
markers. -/
def test_files (r : RepoData) : List Str :=
  (config_file_paths r).filter (fun f =>
    containsSub ("test".toList) f || containsSub ("jest".toList) f ||
    containsSub ("cypress".toList) f || containsSub ("spec".toList) f)

/-- `cicd_files`: lowercased config paths containing one of the CI/CD
markers. -/
def cicd_files (r : RepoData) : List Str :=
  (config_file_paths r).filter (fun f =>
    containsSub (".github/workflows".toList) f || containsSub ("gitlab-ci".toList) f ||
    containsSub ("jenkins".toList) f || containsSub ("circleci".toList) f ||
    containsSub ("travis".toList) f)

/-- The lowercased README `repo_data.get('readme', '').lower()`. -/
def readmeLower (r : RepoData) : Str := lowerStr r.readme

/-- `has_contributing = 'contributing' in readme or 'CONTRIBUTING.md' in config_file_paths`.
The second disjunct is Python list membership (string equality against
each lowercased path). -/
def has_contributing (r : RepoData) : Bool :=
  containsSub ("contributing".toList) (readmeLower r) ||
    decide (("CONTRIBUTING.md".toList) ∈ config_file_paths r)

/-- `has_changelog = 'changelog' in readme or 'CHANGELOG.md' in config_file_paths`. -/
def has_changelog (r : RepoData) : Bool :=
  containsSub ("changelog".toList) (readmeLower r) ||
    decide (("CHANGELOG.md".toList) ∈ config_file_paths r)

/-- `re.search(r'version \d+\.\d+', readme)` at one candidate start
position: the text starts with `version `, is followed by a (maximal)
nonempty digit run, then a dot, then a further digit.  Backtracking of
`\d+` never helps (shortening the run re-reads a digit where a dot is
required), so this is exactly the regex's matching condition at that
position. -/
def versionAt (t : Str) : Bool :=
  if ("version ".toList).isPrefixOf t then
    let rest := t.drop ("version ".toList).length
    let ds := rest.takeWhile Char.isDigit
    !ds.isEmpty &&
      (match rest.drop ds.length with
       | '.' :: c :: _ => c.isDigit
       | ['.'] => false
       | _ => false)
  else false

/-- `has_version = bool(re.search(r'version \d+\.\d+', readme))`:
some suffix of the lowercased README matches at its start. -/
def has_version (r : RepoData) : Bool := (readmeLower r).tails.any versionAt

/-- `estimate_project_maturity(repo_data)`: the decision chain of the
source, branch for branch (including the unreachable inner `else`
yielding Alpha). -/
def estimate_project_maturity (r : RepoData) : Str :=
  if !(deploy_files r).isEmpty && !(test_files r).isEmpty && !(cicd_files r).isEmpty
      && has_version r then
    if has_contributing r && has_changelog r && r.sentry && r.snyk then
      ("Production-Ready".toList)
    else if !(deploy_files r).isEmpty then
      ("Beta".toList)
    else
      ("Alpha".toList)
  else if (deploy_files r).isEmpty && (test_files r).isEmpty
      && containsSub ("archived".toList) (readmeLower r) then
    ("Legacy".toList)
  else if !(deploy_files r).isEmpty then
    ("Beta".toList)
  else
    ("Alpha".toList)

/-- Python dict assignment `d[k] = v` on an insertion-ordered
association list: the first occurrence of the key is updated in place,
a missing key is appended at the end. -/
def dictSet (k : Str) (v : Bool) : List (Str × Bool) → List (Str × Bool)
  | [] => [(k, v)]
  | (k', v') :: rest => if k' = k then (k, v) :: rest else (k', v') :: dictSet k v rest

/-- `{service: False for service in service_keywords}`. -/
def dictInit (keywords : List Str) : List (Str × Bool) :=
  keywords.foldl (fun d k => dictSet k false d) []

/-- `detect_services(org, repo, config_files, service_keywords)` from
`src/utils/github.py`, with the network abstracted away: `contents` is
the list of file contents the per-file `get_file_content` calls return
(a fetch failure or falsy content contributes an empty string, which the
`if content:` guard skips), and `workflowsNonempty` tells whether the
`.github/workflows` listing API call returned a list with at least one
entry. -/
def detect_services (contents : List Str) (service_keywords : List Str)
    (workflowsNonempty : Bool) : List (Str × Bool) :=
  let services := dictInit service_keywords
  let services := contents.foldl
    (fun d content =>
      if content.isEmpty then d
      else service_keywords.foldl
        (fun d' svc =>
          if containsSub (lowerStr svc) (lowerStr content) then dictSet svc true d' else d')
        d)
    services
  if workflowsNonempty then dictSet ("github actions".toList) true services else services

/-- Python `str.split('\n\n')`: split at each non-overlapping occurrence
of the two-character separator, left to right. -/
def splitParagraphs : Str → List Str
  | [] => [[]]
  | '\n' :: '\n' :: cs => [] :: splitParagraphs cs
  | c :: cs =>
    match splitParagraphs cs with
    | [] => [[c]]
    | p :: ps => (c :: p) :: ps

/-- Python whitespace for `str.strip()` (ASCII fragment). -/
def isPyWs (c : Char) : Bool :=
  c = ' ' || c = '\t' || c = '\n' || c = '\r' || c = '\x0b' || c = '\x0c'

/-- Python `str.strip()`: drop whitespace from both ends. -/
def pyStrip (l : Str) : Str :=
  ((l.dropWhile isPyWs).reverse.dropWhile isPyWs).reverse

/-- `re.sub(r'[#*`_]+', '', s)`: delete every occurrence of the four
markdown characters (the code 96 character is the backquote). -/
def stripMd (l : Str) : Str :=
  l.filter (fun c => !(c = '#' || c = '*' || c.toNat = 96 || c = '_'))

/-- The paragraph the summary extraction of `analyze_repositories`
selects: the first `\n\n`-paragraph, or the second one when the first
starts with `#` (empty when there is no second one). -/
def firstParagraph (readme : Str) : Str :=
  match splitParagraphs readme with
  | [] => []
  | p0 :: rest =>
    if p0.head? = some '#' then
      match rest with
      | p1 :: _ => p1
      | [] => []
    else p0

/-- The cleaned summary before truncation:
`re.sub(r'[#*`_]+', '', first_paragraph).strip()`. -/
def rawSummary (readme : Str) : Str := pyStrip (stripMd (firstParagraph readme))

/-- The summary field computed by `analyze_repositories`: empty for a
falsy README, else the cleaned first paragraph, truncated to
197 characters plus `"..."` when longer than 200. -/
def extract_summary (readme : Str) : Str :=
  if readme.isEmpty then []
  else
    let sum := rawSummary readme
    if 200 < sum.length then sum.take 197 ++ ("...".toList) else sum

/-- Python dict counting step `tech_counts[tech] += 1` /
`tech_counts[tech] = 1` on an insertion-ordered association list. -/
def dictBump (t : Str) : List (Str × Nat) → List (Str × Nat)
  | [] => [(t, 1)]
  | (k, c) :: rest => if k = t then (k, c + 1) :: rest else (k, c) :: dictBump t rest

/-- The `tech_counts` dict of `get_top_technologies`: tag occurrences
counted record by record, tag by tag.  A record is its `tech_stack`
list. -/
def countTags (records : List (List Str)) : List (Str × Nat) :=
  records.foldl (fun d ts => ts.foldl (fun d' t => dictBump t d') d) []

/-- The comparison `sorted(..., key=lambda x: x[1], reverse=True)` sorts
by: count of the left pair at least the count of the right pair. -/
def cntGe (p q : Str × Nat) : Prop := q.2 ≤ p.2

instance : DecidableRel cntGe := fun p q => Nat.decLe q.2 p.2

instance : IsTotal (Str × Nat) cntGe := ⟨fun a b => Nat.le_total b.2 a.2⟩

instance : IsTrans (Str × Nat) cntGe := ⟨fun _ _ _ h1 h2 => Nat.le_trans h2 h1⟩

/-- `get_top_technologies(repositories, top_n)` from
`src/generate_reports.py`: count tags into an insertion-ordered dict,
stable-sort the items by count descending (Python's `sorted` is stable;
`List.insertionSort` with `cntGe` is the same stable descending sort),
keep the first `n`. -/
def get_top_technologies (records : List (List Str)) (n : Nat) : List (Str × Nat) :=
  (List.insertionSort cntGe (countTags records)).take n

/-- Total number of occurrences of tag `t` across all records, the
value `tech_counts[t]` must end at. -/
def tagCount (t : Str) (records : List (List Str)) : Nat :=
  records.foldl (fun acc ts => acc + ts.count t) 0

/-- First-occurrence deduplication (left to right), accumulator =
already-seen keys. -/
def firstDedupAux (seen : List Str) : List Str → List Str
  | [] => []
  | a :: l => if a ∈ seen then firstDedupAux seen l else a :: firstDedupAux (a :: seen) l

/-- The tags in first-encountered order: Python dict insertion order of
`tech_counts`. -/
def firstSeenTags (records : List (List Str)) : List Str :=
  firstDedupAux [] records.flatten

/-! ## Helper lemmas -/

/-- `Char.ofNat` on a valid scalar value round-trips through `toNat`. -/
theorem char_toNat_ofNat_valid (n : Nat) (h : n.isValidChar) : (Char.ofNat n).toNat = n := by
  unfold Char.ofNat
  rw [dif_pos h]
  rfl

/-- `Char.toLower` either shifts an ASCII capital down by 32 or leaves
the character unchanged (and then it is not an ASCII capital). -/
theorem toLower_cases (c : Char) :
    ((Char.toLower c).toNat = c.toNat + 32 ∧ 65 ≤ c.toNat ∧ c.toNat ≤ 90) ∨
      (Char.toLower c = c ∧ ¬(65 ≤ c.toNat ∧ c.toNat ≤ 90)) := by
  unfold Char.toLower
  by_cases h : c.toNat ≥ 65 ∧ c.toNat ≤ 90
  · left
    rw [if_pos h]
    refine ⟨char_toNat_ofNat_valid _ (Or.inl (by omega)), h.1, h.2⟩
  · right
    rw [if_neg h]
    exact ⟨rfl, h⟩

/-- `Char.toLower` never produces an ASCII capital letter. -/
theorem toLower_ne_upper (c d : Char) (h1 : 65 ≤ d.toNat) (h2 : d.toNat ≤ 90) :
    Char.toLower c ≠ d := by
  intro he
  rcases toLower_cases c with ⟨hEq, hc1, hc2⟩ | ⟨hEq, hc⟩
  · rw [he] at hEq
    omega
  · rw [hEq] at he
    subst he
    exact hc ⟨h1, h2⟩

/-- A lowercased string never starts with an ASCII capital letter. -/
theorem lowerStr_head_not_upper (p : Str) (c : Char) (tl : Str)
    (h : lowerStr p = c :: tl) (h1 : 65 ≤ c.toNat) (h2 : c.toNat ≤ 90) : False := by
  cases p with
  | nil => simp [lowerStr] at h
  | cons a rest =>
    simp only [lowerStr, List.map_cons, List.cons.injEq] at h
    exact toLower_ne_upper a c h1 h2 h.1

/-- C10: in `estimate_project_maturity`, the clause
`'CONTRIBUTING.md' in config_file_paths` compares a mixed-case literal
against lowercased paths and therefore never holds, whatever the path
list; likewise for `'CHANGELOG.md'`.  Hence `has_contributing` is true
exactly when the lowercased README contains `"contributing"`, and
`has_changelog` exactly when it contains `"changelog"`. -/
theorem config_path_clauses_dead (r : RepoData) :
    ("CONTRIBUTING.md".toList) ∉ config_file_paths r ∧
    ("CHANGELOG.md".toList) ∉ config_file_paths r ∧
    has_contributing r = containsSub ("contributing".toList) (readmeLower r) ∧
    has_changelog r = containsSub ("changelog".toList) (readmeLower r) := by
  have hco : ("CONTRIBUTING.md".toList) ∉ config_file_paths r := by
    intro hmem
    obtain ⟨p, _, hp⟩ := List.mem_map.1 hmem
    exact lowerStr_head_not_upper p 'C' ("ONTRIBUTING.md".toList) hp (by decide) (by decide)
  have hch : ("CHANGELOG.md".toList) ∉ config_file_paths r := by
    intro hmem
    obtain ⟨p, _, hp⟩ := List.mem_map.1 hmem
    exact lowerStr_head_not_upper p 'C' ("HANGELOG.md".toList) hp (by decide) (by decide)
  refine ⟨hco, hch, ?_, ?_⟩
  · simp only [has_contributing, decide_eq_false hco, Bool.or_false]
  · simp only [has_changelog, decide_eq_false hch, Bool.or_false]

/-- C5: `estimate_project_maturity` always lands in one of the four
enumerated levels; its default value `"Unknown"` is unreachable. -/
theorem maturity_enumeration (r : RepoData) :
    (estimate_project_maturity r = ("Alpha".toList) ∨
     estimate_project_maturity r = ("Beta".toList) ∨
     estimate_project_maturity r = ("Production-Ready".toList) ∨
     estimate_project_maturity r = ("Legacy".toList)) ∧
    estimate_project_maturity r ≠ ("Unknown".toList) := by
  unfold estimate_project_maturity
  constructor
  · repeat' split
    all_goals decide
  · repeat' split
    all_goals decide

/-- C2: when the outer gate (deploy, tests, CI/CD, version) passes but
the Production-Ready conjunction fails, the estimator yields Beta — the
inner `elif deploy_files` re-test is guaranteed true by the outer
condition, so the inner `else` (Alpha) is dead. -/
theorem maturity_beta_of_incomplete (r : RepoData)
    (hd : deploy_files r ≠ []) (ht : test_files r ≠ []) (hc : cicd_files r ≠ [])
    (hv : has_version r = true)
    (hnot : (has_contributing r && has_changelog r && r.sentry && r.snyk) = false) :
    estimate_project_maturity r = ("Beta".toList) ∧
    estimate_project_maturity r ≠ ("Alpha".toList) := by
  have hd' := List.isEmpty_eq_false.mpr hd
  have ht' := List.isEmpty_eq_false.mpr ht
  have hc' := List.isEmpty_eq_false.mpr hc
  refine ⟨?_, ?_⟩ <;> simp [estimate_project_maturity, hd', ht', hc', hv, hnot]

/-- C2 witness: the spec's own Beta example — deploy, test and CI/CD
paths, `version 2.0` in the README, but no `contributing`. -/
theorem maturity_beta_of_incomplete_witness :
    estimate_project_maturity
      ⟨[], ("version 2.0".toList), [],
       ["kubernetes/deploy.yaml".toList, "tests/unit.spec.js".toList,
        ".github/workflows/ci.yml".toList], true, true⟩ = ("Beta".toList) :=
  (maturity_beta_of_incomplete _ (by decide) (by decide) (by decide) (by decide)
    (by decide)).1

/-- C4: when the outer gate passes and additionally contributing,
changelog, the sentry flag and the snyk flag all hold, the estimator
yields Production-Ready. -/
theorem maturity_production_ready (r : RepoData)
    (hd : deploy_files r ≠ []) (ht : test_files r ≠ []) (hc : cicd_files r ≠ [])
    (hv : has_version r = true) (hco : has_contributing r = true)
    (hch : has_changelog r = true) (hm : r.sentry = true) (hs : r.snyk = true) :
    estimate_project_maturity r = ("Production-Ready".toList) := by
  have hd' := List.isEmpty_eq_false.mpr hd
  have ht' := List.isEmpty_eq_false.mpr ht
  have hc' := List.isEmpty_eq_false.mpr hc
  simp [estimate_project_maturity, hd', ht', hc', hv, hco, hch, hm, hs]

/-- C4 witness: the spec's Production-Ready example. -/
theorem maturity_production_ready_witness :
    estimate_project_maturity
      ⟨[], ("version 2.0 see contributing and changelog".toList), [],
       ["kubernetes/deploy.yaml".toList, "tests/unit.spec.js".toList,
        ".github/workflows/ci.yml".toList], true, true⟩ = ("Production-Ready".toList) :=
  maturity_production_ready _ (by decide) (by decide) (by decide) (by decide)
    (by decide) (by decide) (by decide) (by decide)

/-- Inserting into the tag set makes the element a member. -/
theorem mem_addTag_self (t : Str) (acc : List Str) : t ∈ addTag t acc := by
  unfold addTag
  split
  · assumption
  · exact List.mem_append_right _ (List.mem_singleton.mpr rfl)

/-- Inserting into the tag set preserves membership. -/
theorem mem_addTag_of_mem {x : Str} (t : Str) {acc : List Str} (h : x ∈ acc) :
    x ∈ addTag t acc := by
  unfold addTag
  split
  · exact h
  · exact List.mem_append_left _ h

/-- Inserting into the tag set preserves freedom from duplicates. -/
theorem nodup_addTag (t : Str) {acc : List Str} (h : acc.Nodup) : (addTag t acc).Nodup := by
  by_cases ht : t ∈ acc
  · simpa [addTag, ht] using h
  · rw [addTag, if_neg ht]
    simp [List.nodup_append, h, ht]

/-- The language pass of `detect_tech_stack` preserves membership. -/
theorem mem_foldl_lang {x : Str} (langs : List Str) (acc : List Str) (h : x ∈ acc) :
    x ∈ langs.foldl (fun acc lang => addTag (lowerStr lang) acc) acc := by
  induction langs generalizing acc with
  | nil => exact h
  | cons a l ih => exact ih _ (mem_addTag_of_mem _ h)

/-- The language pass tags every language key, lowercased. -/
theorem mem_foldl_lang_of_mem {lang : Str} (langs : List Str) :
    ∀ acc : List Str, lang ∈ langs →
    lowerStr lang ∈ langs.foldl (fun acc lang => addTag (lowerStr lang) acc) acc := by
  induction langs with
  | nil => intro acc h; cases h
  | cons a l ih =>
    intro acc h
    simp only [List.foldl_cons]
    rcases List.mem_cons.1 h with rfl | h'
    · exact mem_foldl_lang _ _ (mem_addTag_self _ _)
    · exact ih _ h'

/-- The configured-keyword pass of `detect_tech_stack` preserves
membership. -/
theorem mem_foldl_kw {x : Str} (kws : List Str) (c : Str) (acc : List Str) (h : x ∈ acc) :
    x ∈ kws.foldl (fun acc kw => if keywordSearch kw c then addTag (lowerStr kw) acc else acc)
      acc := by
  induction kws generalizing acc with
  | nil => exact h
  | cons a l ih =>
    simp only [List.foldl_cons]
    apply ih
    split
    · exact mem_addTag_of_mem _ h
    · exact h

/-- The framework pass of `detect_tech_stack` preserves membership. -/
theorem mem_foldl_fw {x : Str} (tbl : List (Str × List Str)) (c : Str) (acc : List Str)
    (h : x ∈ acc) :
    x ∈ tbl.foldl (fun acc p => if firstAliasHit p.2 c then addTag p.1 acc else acc) acc := by
  induction tbl generalizing acc with
  | nil => exact h
  | cons p rest ih =>
    simp only [List.foldl_cons]
    apply ih
    split
    · exact mem_addTag_of_mem _ h
    · exact h

/-- A table entry whose alias loop hits gets its canonical name into the
tag set. -/
theorem mem_foldl_fw_of_hit {tech : Str} {aliases : List Str}
    (tbl : List (Str × List Str)) (c : Str) (hhit : firstAliasHit aliases c = true) :
    ∀ acc : List Str, (tech, aliases) ∈ tbl →
    tech ∈ tbl.foldl (fun acc p => if firstAliasHit p.2 c then addTag p.1 acc else acc)
      acc := by
  induction tbl with
  | nil => intro acc h; cases h
  | cons p rest ih =>
    intro acc hmem
    simp only [List.foldl_cons]
    rcases List.mem_cons.1 hmem with heq | h'
    · subst heq
      have harm : (if firstAliasHit (tech, aliases).2 c then addTag (tech, aliases).1 acc
          else acc) = addTag tech acc := by
        simp [hhit]
      rw [harm]
      exact mem_foldl_fw _ _ _ (mem_addTag_self _ _)
    · exact ih _ h'

/-- All three passes preserve freedom from duplicates, so the final tag
list is duplicate-free (the Python value is a `set`). -/
theorem nodup_detect_tech_stack (r : RepoData) (keywords : List Str) :
    (detect_tech_stack r keywords).Nodup := by
  unfold detect_tech_stack
  have h1 : ∀ (langs : List Str) (acc : List Str), acc.Nodup →
      (langs.foldl (fun acc lang => addTag (lowerStr lang) acc) acc).Nodup := by
    intro langs
    induction langs with
    | nil => exact fun acc h => h
    | cons a l ih => exact fun acc h => ih _ (nodup_addTag _ h)
  have h2 : ∀ (kws : List Str) (c : Str) (acc : List Str), acc.Nodup →
      (kws.foldl (fun acc kw => if keywordSearch kw c then addTag (lowerStr kw) acc else acc)
        acc).Nodup := by
    intro kws c
    induction kws with
    | nil => exact fun acc h => h
    | cons a l ih =>
      intro acc h
      simp only [List.foldl_cons]
      apply ih
      split
      · exact nodup_addTag _ h
      · exact h
  have h3 : ∀ (tbl : List (Str × List Str)) (c : Str) (acc : List Str), acc.Nodup →
      (tbl.foldl (fun acc p => if firstAliasHit p.2 c then addTag p.1 acc else acc)
        acc).Nodup := by
    intro tbl c
    induction tbl with
    | nil => exact fun acc h => h
    | cons p rest ih =>
      intro acc h
      simp only [List.foldl_cons]
      apply ih
      split
      · exact nodup_addTag _ h
      · exact h
  exact h3 _ _ _ (h2 _ _ _ (h1 _ _ List.nodup_nil))

/-- In a duplicate-free list every member is counted exactly once. -/
theorem count_eq_one_of_nodup_mem {x : Str} {l : List Str} (hn : l.Nodup) (hm : x ∈ l) :
    l.count x = 1 := by
  induction l with
  | nil => cases hm
  | cons a t ih =>
    rcases List.mem_cons.1 hm with rfl | h'
    · rw [List.count_cons_self]
      have hz : t.count x = 0 := List.count_eq_zero.mpr (List.nodup_cons.1 hn).1
      rw [hz]
    · have hne : x ≠ a := by
        intro he
        exact (List.nodup_cons.1 hn).1 (he ▸ h')
      rw [List.count_cons_of_ne hne]
      exact ih (List.nodup_cons.1 hn).2 h'

/-- C7: every key of the language map, lowercased, is in the detected
tag set, whatever the corpus and keyword vocabulary. -/
theorem language_keys_always_tagged (r : RepoData) (keywords : List Str) (lang : Str)
    (h : lang ∈ r.languages) :
    lowerStr lang ∈ detect_tech_stack r keywords := by
  unfold detect_tech_stack
  exact mem_foldl_fw _ _ _ (mem_foldl_kw _ _ _ (mem_foldl_lang_of_mem _ _ h))

/-- C7 witness: a repository reporting Python bytes is tagged `python`,
with an empty corpus and no keyword vocabulary. -/
theorem language_keys_always_tagged_witness :
    ("python".toList) ∈ detect_tech_stack ⟨[("Python".toList)], [], [], [], false, false⟩ [] := by
  have h := language_keys_always_tagged ⟨[("Python".toList)], [], [], [], false, false⟩ []
    ("Python".toList) (by decide)
  simpa using h

/-- C6: a framework-table entry whose alias loop hits contributes its
canonical tag exactly once, however many aliases match; and the alias
loop short-circuits — once one alias is a substring of the corpus, the
aliases after it are never examined (the loop's value does not depend on
them). -/
theorem framework_alias_tagged_once (r : RepoData) (keywords : List Str)
    (tech : Str) (aliases : List Str)
    (hmem : (tech, aliases) ∈ frameworks)
    (hhit : firstAliasHit aliases (corpus r) = true) :
    (detect_tech_stack r keywords).count tech = 1 ∧
    (∀ (pre : List Str) (a : Str) (post post' : List Str),
      (∀ b ∈ pre, containsSub b (corpus r) = false) → containsSub a (corpus r) = true →
      firstAliasHit (pre ++ a :: post) (corpus r) = firstAliasHit (pre ++ a :: post')
        (corpus r)) := by
  constructor
  · have hm : tech ∈ detect_tech_stack r keywords := by
      unfold detect_tech_stack
      exact mem_foldl_fw_of_hit _ _ hhit _ hmem
    exact count_eq_one_of_nodup_mem (nodup_detect_tech_stack r keywords) hm
  · intro pre a post post' hpre ha
    induction pre with
    | nil => simp [firstAliasHit, ha]
    | cons b pre' ih =>
      have hb : containsSub b (corpus r) = false := hpre b (List.mem_cons_self _ _)
      simp only [List.cons_append, firstAliasHit, hb]
      exact ih fun x hx => hpre x (List.mem_cons_of_mem _ hx)

/-- C6 witness: a corpus matching two react aliases (`jsx`,
`react-dom`) yields the tag `react` exactly once. -/
theorem framework_alias_tagged_once_witness :
    (detect_tech_stack ⟨[], ("ships jsx components via react-dom".toList), [], [], false,
      false⟩ []).count ("react".toList) = 1 :=
  (framework_alias_tagged_once
    ⟨[], ("ships jsx components via react-dom".toList), [], [], false, false⟩ []
    ("react".toList)
    ["react".toList, "jsx".toList, "react-dom".toList, "react native".toList,
     "nextjs".toList, "next.js".toList]
    (by decide) (by decide)).1

/-- C1: the keyword loop's regex is built from the raw string `r'\\b'`,
which matches a literal backslash-`b`, not a word boundary.  On the
corpus `python is great` with vocabulary `['python']`, the keyword
occurs as a standalone word (and `containsSub` confirms it is present),
yet the search fails and `detect_tech_stack` returns no tag at all —
the code contradicts the intended (and specified) word-boundary
matching. -/
theorem keyword_word_boundary_broken :
    detect_tech_stack ⟨[], ("python is great".toList), [], [], false, false⟩
      [("python".toList)] = [] ∧
    containsSub ("python".toList)
      (corpus ⟨[], ("python is great".toList), [], [], false, false⟩) = true ∧
    keywordSearch ("python".toList)
      (corpus ⟨[], ("python is great".toList), [], [], false, false⟩) = false := by
  decide

/-- C8: the derived summary never exceeds 200 characters, and whenever
the cleaned first non-heading paragraph exceeds 200 characters the
summary is its first 197 characters followed by `...`. -/
theorem summary_capped (readme : Str) :
    (extract_summary readme).length ≤ 200 ∧
    (200 < (rawSummary readme).length →
      extract_summary readme = (rawSummary readme).take 197 ++ ("...".toList)) := by
  constructor
  · unfold extract_summary
    split
    · simp
    · dsimp only
      split
      · rename_i hlong
        rw [List.length_append, List.length_take]
        have h3 : ("...".toList).length = 3 := rfl
        rw [h3]
        have := Nat.min_le_left 197 (rawSummary readme).length
        omega
      · rename_i hshort
        omega
  · intro h
    have hne : readme.isEmpty = false := by
      cases readme with
      | nil => exact absurd h (by decide)
      | cons a t => rfl
    simp only [extract_summary, hne, Bool.false_eq_true, if_false]
    rw [if_pos h]

/-- A README whose first block is a heading and whose second block is a
250-character paragraph (the spec's summary-extraction example). -/
def readme250 : Str := ("# Title".toList) ++ ['\n', '\n'] ++ List.replicate 250 'a'

set_option maxRecDepth 4000 in
/-- C8 witness: on `readme250` the cleaned paragraph has 250 characters,
so the summary is the 197-character prefix plus `...`: exactly 200
characters, ending in `...`. -/
theorem summary_capped_witness :
    200 < (rawSummary readme250).length ∧
    extract_summary readme250 = (rawSummary readme250).take 197 ++ ("...".toList) ∧
    (extract_summary readme250).length = 200 ∧
    (extract_summary readme250).drop 197 = ("...".toList) :=
  ⟨by decide, (summary_capped readme250).2 (by decide), by decide, by decide⟩

/-- `dictSet` puts the assigned pair into the dict. -/
theorem mem_dictSet_self (k : Str) (v : Bool) (d : List (Str × Bool)) :
    (k, v) ∈ dictSet k v d := by
  induction d with
  | nil => exact List.mem_singleton.mpr rfl
  | cons p rest ih =>
    obtain ⟨k2, v2⟩ := p
    simp only [dictSet]
    split
    · exact List.mem_cons_self _ _
    · exact List.mem_cons_of_mem _ ih

/-- `dictSet` of another key preserves a pair. -/
theorem mem_dictSet_of_ne {k : Str} {v : Bool} {d : List (Str × Bool)} (k' : Str) (v' : Bool)
    (h : (k, v) ∈ d) (hne : k ≠ k') : (k, v) ∈ dictSet k' v' d := by
  induction d with
  | nil => cases h
  | cons p rest ih =>
    obtain ⟨k2, v2⟩ := p
    simp only [dictSet]
    split
    · rename_i heq
      rcases List.mem_cons.1 h with hpair | h'
      · injection hpair with h1 h2
        exact absurd (h1.trans heq) hne
      · exact List.mem_cons_of_mem _ h'
    · rcases List.mem_cons.1 h with hpair | h'
      · exact hpair ▸ List.mem_cons_self _ _
      · exact List.mem_cons_of_mem _ (ih h')

/-- Re-assigning `false` anywhere preserves a `false` pair. -/
theorem mem_dictSet_false (k k' : Str) {d : List (Str × Bool)} (h : (k, false) ∈ d) :
    (k, false) ∈ dictSet k' false d := by
  by_cases he : k = k'
  · subst he
    exact mem_dictSet_self _ _ _
  · exact mem_dictSet_of_ne _ _ h he

/-- The key set after `dictSet` is the old key set plus the assigned
key. -/
theorem keys_dictSet {x : Str} (k : Str) (v : Bool) (d : List (Str × Bool)) :
    x ∈ (dictSet k v d).map Prod.fst ↔ x = k ∨ x ∈ d.map Prod.fst := by
  induction d with
  | nil => simp [dictSet]
  | cons p rest ih =>
    obtain ⟨k2, v2⟩ := p
    simp only [dictSet]
    split
    · rename_i heq
      subst heq
      simp only [List.map_cons, List.mem_cons]
      tauto
    · simp only [List.map_cons, List.mem_cons, ih]
      tauto

/-- Every vocabulary entry ends in the initial dict with value
`false`. -/
theorem mem_foldl_dictInit {k : Str} (ks : List Str) :
    ∀ d : List (Str × Bool), ((k, false) ∈ d ∨ k ∈ ks) →
    (k, false) ∈ ks.foldl (fun d k => dictSet k false d) d := by
  induction ks with
  | nil =>
    intro d h
    rcases h with hd | hks
    · exact hd
    · cases hks
  | cons a t ih =>
    intro d h
    simp only [List.foldl_cons]
    apply ih
    rcases h with hd | hks
    · exact Or.inl (mem_dictSet_false _ _ hd)
    · rcases List.mem_cons.1 hks with rfl | h'
      · exact Or.inl (mem_dictSet_self _ _ _)
      · exact Or.inr h'

/-- The initialization loop adds no key beyond the vocabulary. -/
theorem keys_foldl_dictInit {x : Str} (ks : List Str) :
    ∀ d : List (Str × Bool),
    x ∈ (ks.foldl (fun d k => dictSet k false d) d).map Prod.fst →
    x ∈ d.map Prod.fst ∨ x ∈ ks := by
  induction ks with
  | nil => exact fun d h => Or.inl h
  | cons a t ih =>
    intro d h
    simp only [List.foldl_cons] at h
    rcases ih _ h with hd | ht
    · rcases (keys_dictSet _ _ _).1 hd with rfl | hd'
      · exact Or.inr (List.mem_cons_self _ _)
      · exact Or.inl hd'
    · exact Or.inr (List.mem_cons_of_mem _ ht)

/-- The per-content keyword scan only grows the key set. -/
theorem keys_scan_mono {x : Str} (ks : List Str) (content : Str) :
    ∀ d : List (Str × Bool), x ∈ d.map Prod.fst →
    x ∈ (ks.foldl (fun d' svc =>
      if containsSub (lowerStr svc) (lowerStr content) then dictSet svc true d' else d')
      d).map Prod.fst := by
  induction ks with
  | nil => exact fun d h => h
  | cons a t ih =>
    intro d h
    simp only [List.foldl_cons]
    apply ih
    split
    · exact (keys_dictSet _ _ _).2 (Or.inr h)
    · exact h

/-- The per-content keyword scan only adds vocabulary keys. -/
theorem keys_scan_bound {x : Str} (ks : List Str) (content : Str) :
    ∀ d : List (Str × Bool),
    x ∈ (ks.foldl (fun d' svc =>
      if containsSub (lowerStr svc) (lowerStr content) then dictSet svc true d' else d')
      d).map Prod.fst →
    x ∈ d.map Prod.fst ∨ x ∈ ks := by
  induction ks with
  | nil => exact fun d h => Or.inl h
  | cons a t ih =>
    intro d h
    simp only [List.foldl_cons] at h
    rcases ih _ h with hd | ht
    · revert hd
      split
      · intro hd
        rcases (keys_dictSet _ _ _).1 hd with rfl | hd'
        · exact Or.inr (List.mem_cons_self _ _)
        · exact Or.inl hd'
      · exact fun hd => Or.inl hd
    · exact Or.inr (List.mem_cons_of_mem _ ht)

/-- A vocabulary entry without evidence in one content survives that
content's scan with value `false`. -/
theorem scan_preserves_false {k : Str} (ks : List Str) (content : Str)
    (hk : containsSub (lowerStr k) (lowerStr content) = false) :
    ∀ d : List (Str × Bool), (k, false) ∈ d →
    (k, false) ∈ ks.foldl (fun d' svc =>
      if containsSub (lowerStr svc) (lowerStr content) then dictSet svc true d' else d') d := by
  induction ks with
  | nil => exact fun d h => h
  | cons a t ih =>
    intro d h
    simp only [List.foldl_cons]
    apply ih
    by_cases hc : containsSub (lowerStr a) (lowerStr content) = true
    · rw [if_pos hc]
      have hne : k ≠ a := by
        intro he
        rw [he, hc] at hk
        cases hk
      exact mem_dictSet_of_ne _ _ h hne
    · rw [if_neg hc]
      exact h

/-- The content loop of `detect_services` only grows the key set. -/
theorem keys_loop_mono {x : Str} (contents : List Str) (ks : List Str) :
    ∀ d : List (Str × Bool), x ∈ d.map Prod.fst →
    x ∈ (contents.foldl (fun d content =>
      if content.isEmpty then d
      else ks.foldl (fun d' svc =>
        if containsSub (lowerStr svc) (lowerStr content) then dictSet svc true d' else d') d)
      d).map Prod.fst := by
  induction contents with
  | nil => exact fun d h => h
  | cons c t ih =>
    intro d h
    simp only [List.foldl_cons]
    apply ih
    split
    · exact h
    · exact keys_scan_mono _ _ _ h

/-- The content loop of `detect_services` only adds vocabulary keys. -/
theorem keys_loop_bound {x : Str} (contents : List Str) (ks : List Str) :
    ∀ d : List (Str × Bool),
    x ∈ (contents.foldl (fun d content =>
      if content.isEmpty then d
      else ks.foldl (fun d' svc =>
        if containsSub (lowerStr svc) (lowerStr content) then dictSet svc true d' else d') d)
      d).map Prod.fst →
    x ∈ d.map Prod.fst ∨ x ∈ ks := by
  induction contents with
  | nil => exact fun d h => Or.inl h
  | cons c t ih =>
    intro d h
    simp only [List.foldl_cons] at h
    rcases ih _ h with hd | ht
    · revert hd
      split
      · exact fun hd => Or.inl hd
      · exact fun hd => keys_scan_bound _ _ _ hd
    · exact Or.inr ht

/-- A vocabulary entry without evidence in any content survives the
whole content loop with value `false`. -/
theorem loop_preserves_false {k : Str} (contents : List Str) (ks : List Str)
    (hk : ∀ content ∈ contents, containsSub (lowerStr k) (lowerStr content) = false) :
    ∀ d : List (Str × Bool), (k, false) ∈ d →
    (k, false) ∈ contents.foldl (fun d content =>
      if content.isEmpty then d
      else ks.foldl (fun d' svc =>
        if containsSub (lowerStr svc) (lowerStr content) then dictSet svc true d' else d') d)
      d := by
  induction contents with
  | nil => exact fun d h => h
  | cons c t ih =>
    intro d h
    simp only [List.foldl_cons]
    apply ih fun content hc => hk content (List.mem_cons_of_mem _ hc)
    split
    · exact h
    · exact scan_preserves_false _ _ (hk c (List.mem_cons_self _ _)) _ h

/-- C3 counterexample: with an empty service vocabulary but a nonempty
workflows listing, `detect_services` returns the out-of-vocabulary key
`github actions`, so its key set is not the configured vocabulary. -/
theorem services_keys_counterexample :
    (detect_services [] [] true).map Prod.fst ≠ ([] : List Str) ∧
    (detect_services [] [] true).map Prod.fst = [("github actions".toList)] := by
  decide

/-- C3 amended: the key set of `detect_services` is the configured
vocabulary except for the dedicated workflows check — every vocabulary
entry is a key; every key is a vocabulary entry, or is `github actions`
with the workflows listing nonempty (so with the flag off the keys are
exactly the vocabulary); and a vocabulary entry with no evidence in any
fetched content, and not forced by the workflows check, keeps the value
`false`. -/
theorem detect_services_keys (contents keywords : List Str) (wf : Bool) :
    (∀ k ∈ keywords, k ∈ (detect_services contents keywords wf).map Prod.fst) ∧
    (∀ x ∈ (detect_services contents keywords wf).map Prod.fst,
      x ∈ keywords ∨ (x = ("github actions".toList) ∧ wf = true)) ∧
    (∀ k ∈ keywords,
      (∀ content ∈ contents, containsSub (lowerStr k) (lowerStr content) = false) →
      (wf = true → k ≠ ("github actions".toList)) →
      (k, false) ∈ detect_services contents keywords wf) := by
  refine ⟨?_, ?_, ?_⟩
  · intro k hk
    unfold detect_services dictInit
    cases wf with
    | false =>
      simp only [Bool.false_eq_true, if_false]
      apply keys_loop_mono
      exact List.mem_map_of_mem Prod.fst (mem_foldl_dictInit _ _ (Or.inr hk))
    | true =>
      simp only [if_true]
      apply (keys_dictSet _ _ _).2
      right
      apply keys_loop_mono
      exact List.mem_map_of_mem Prod.fst (mem_foldl_dictInit _ _ (Or.inr hk))
  · intro x hx
    unfold detect_services dictInit at hx
    cases wf with
    | false =>
      simp only [Bool.false_eq_true, if_false] at hx
      rcases keys_loop_bound _ _ _ hx with hd | hks
      · rcases keys_foldl_dictInit _ _ hd with hnil | hks'
        · simp at hnil
        · exact Or.inl hks'
      · exact Or.inl hks
    | true =>
      simp only [if_true] at hx
      rcases (keys_dictSet _ _ _).1 hx with rfl | hx'
      · exact Or.inr ⟨rfl, rfl⟩
      · rcases keys_loop_bound _ _ _ hx' with hd | hks
        · rcases keys_foldl_dictInit _ _ hd with hnil | hks'
          · simp at hnil
          · exact Or.inl hks'
        · exact Or.inl hks
  · intro k hk hno hgh
    unfold detect_services dictInit
    cases wf with
    | false =>
      simp only [Bool.false_eq_true, if_false]
      exact loop_preserves_false _ _ hno _ (mem_foldl_dictInit _ _ (Or.inr hk))
    | true =>
      simp only [if_true]
      exact mem_dictSet_of_ne _ _
        (loop_preserves_false _ _ hno _ (mem_foldl_dictInit _ _ (Or.inr hk))) (hgh rfl)

/-- C3 witness: vocabulary `['sentry', 'snyk']`, one content mentioning
Sentry, workflows listing nonempty — `snyk` is a key and keeps the
value `false`. -/
theorem detect_services_keys_witness :
    ("snyk".toList) ∈ (detect_services [("uses Sentry".toList)]
      [("sentry".toList), ("snyk".toList)] true).map Prod.fst ∧
    (("snyk".toList), false) ∈ detect_services [("uses Sentry".toList)]
      [("sentry".toList), ("snyk".toList)] true :=
  ⟨(detect_services_keys [("uses Sentry".toList)] [("sentry".toList), ("snyk".toList)]
      true).1 _ (by decide),
   (detect_services_keys [("uses Sentry".toList)] [("sentry".toList), ("snyk".toList)]
      true).2.2 _ (by decide) (by decide) (by decide)⟩

/-- Lookup in the counting dict (0 for a missing key, as the code's
membership test plus assignment behaves). -/
def dictGet (t : Str) : List (Str × Nat) → Nat
  | [] => 0
  | (k, c) :: rest => if k = t then c else dictGet t rest

/-- Bumping a key increments its looked-up count. -/
theorem dictGet_dictBump_self (t : Str) (d : List (Str × Nat)) :
    dictGet t (dictBump t d) = dictGet t d + 1 := by
  induction d with
  | nil => simp [dictBump, dictGet]
  | cons p rest ih =>
    obtain ⟨k, c⟩ := p
    by_cases hk : k = t
    · subst hk
      simp [dictBump, dictGet]
    · simp [dictBump, dictGet, hk, ih]

/-- Bumping one key leaves other lookups unchanged. -/
theorem dictGet_dictBump_ne {k t : Str} (hne : k ≠ t) (d : List (Str × Nat)) :
    dictGet k (dictBump t d) = dictGet k d := by
  have hne' : ¬t = k := fun h => hne h.symm
  induction d with
  | nil => simp [dictBump, dictGet, hne']
  | cons p rest ih =>
    obtain ⟨k2, c⟩ := p
    by_cases hk : k2 = t
    · subst hk
      simp [dictBump, dictGet, hne']
    · simp [dictBump, dictGet, hk, ih]

/-- The key list after a bump: unchanged for a present key, the new key
appended for an absent one. -/
theorem keys_dictBump (t : Str) (d : List (Str × Nat)) :
    (dictBump t d).map Prod.fst =
      if t ∈ d.map Prod.fst then d.map Prod.fst else d.map Prod.fst ++ [t] := by
  induction d with
  | nil => simp [dictBump]
  | cons p rest ih =>
    obtain ⟨k, c⟩ := p
    by_cases hk : k = t
    · subst hk
      simp [dictBump]
    · have hk' : ¬t = k := fun h => hk h.symm
      simp only [dictBump, if_neg hk, List.map_cons]
      by_cases ht : t ∈ rest.map Prod.fst
      · simp [ht, ih, hk']
      · simp [ht, ih, hk']

/-- Bumping preserves duplicate-freedom of the key list. -/
theorem nodup_keys_dictBump (t : Str) {d : List (Str × Nat)}
    (h : (d.map Prod.fst).Nodup) : ((dictBump t d).map Prod.fst).Nodup := by
  rw [keys_dictBump]
  split
  · exact h
  · rename_i ht
    simp [List.nodup_append, h, ht]

/-- With duplicate-free keys, lookup returns the stored value. -/
theorem dictGet_of_mem {k : Str} {c : Nat} :
    ∀ {d : List (Str × Nat)}, (d.map Prod.fst).Nodup → (k, c) ∈ d → dictGet k d = c := by
  intro d
  induction d with
  | nil => intro _ h; cases h
  | cons p rest ih =>
    obtain ⟨k2, c2⟩ := p
    intro hn hm
    rcases List.mem_cons.1 hm with hpair | h'
    · injection hpair with h1 h2
      subst h1
      subst h2
      simp [dictGet]
    · have hk : k ∈ rest.map Prod.fst := List.mem_map_of_mem Prod.fst h'
      have hne : k2 ≠ k := by
        intro he
        exact (List.nodup_cons.1 (by simpa using hn)).1 (he ▸ hk)
      simp only [dictGet, if_neg hne]
      exact ih (List.nodup_cons.1 (by simpa using hn)).2 h'

/-- Folding bumps over a flat tag list: the looked-up value grows by
exactly the tag's number of occurrences. -/
theorem dictGet_bump_fold (l : List Str) :
    ∀ (d : List (Str × Nat)) (k : Str),
    dictGet k (l.foldl (fun d' t => dictBump t d') d) = dictGet k d + l.count k := by
  induction l with
  | nil => simp
  | cons t rest ih =>
    intro d k
    simp only [List.foldl_cons, ih, List.count_cons]
    by_cases he : k = t
    · subst he
      simp [dictGet_dictBump_self]
      omega
    · rw [dictGet_dictBump_ne he]
      have hb : (k == t) = false := by simp [he]
      have hne' : ¬t = k := fun h => he h.symm
      simp [hb, hne']

/-- Folding bumps preserves duplicate-freedom of the key list. -/
theorem nodup_keys_bump_fold (l : List Str) :
    ∀ d : List (Str × Nat), (d.map Prod.fst).Nodup →
    (((l.foldl (fun d' t => dictBump t d') d)).map Prod.fst).Nodup := by
  induction l with
  | nil => exact fun d h => h
  | cons t rest ih =>
    intro d h
    simp only [List.foldl_cons]
    exact ih _ (nodup_keys_dictBump t h)

/-- The nested record/tag double fold of `get_top_technologies` equals
the fold over the flattened tag list. -/
theorem countTags_eq_flat (records : List (List Str)) :
    countTags records = records.flatten.foldl (fun d' t => dictBump t d') [] := by
  suffices h : ∀ (rs : List (List Str)) (d : List (Str × Nat)),
      rs.foldl (fun d ts => ts.foldl (fun d' t => dictBump t d') d) d =
        rs.flatten.foldl (fun d' t => dictBump t d') d by
    exact h records []
  intro rs
  induction rs with
  | nil => simp
  | cons ts rest ih =>
    intro d
    simp only [List.foldl_cons, List.flatten_cons, List.foldl_append]
    exact ih _

/-- `tagCount` is the tag's occurrence count in the flattened list. -/
theorem tagCount_eq_flat (t : Str) (records : List (List Str)) :
    tagCount t records = records.flatten.count t := by
  suffices h : ∀ (rs : List (List Str)) (acc : Nat),
      rs.foldl (fun acc ts => acc + ts.count t) acc = acc + rs.flatten.count t by
    simpa using h records 0
  intro rs
  induction rs with
  | nil => simp
  | cons ts rest ih =>
    intro acc
    simp only [List.foldl_cons, List.flatten_cons, List.count_append, ih]
    omega

/-- Every entry of the counting dict stores its key's exact total
occurrence count. -/
theorem countTags_value (records : List (List Str)) {k : Str} {c : Nat}
    (h : (k, c) ∈ countTags records) : c = tagCount k records := by
  have hn : ((countTags records).map Prod.fst).Nodup := by
    rw [countTags_eq_flat]
    exact nodup_keys_bump_fold _ _ (by simp)
  have hg := dictGet_of_mem hn h
  rw [countTags_eq_flat] at hg
  rw [dictGet_bump_fold] at hg
  simp only [dictGet] at hg
  rw [tagCount_eq_flat]
  omega

/-- Ordered insertion for the descending-count order moves the new pair
past strictly larger counts only, so for any fixed count value the
filtered subsequence is as if the pair had been consed on front: the
sort is stable. -/
theorem filter_orderedInsert (c : Nat) (x : Str × Nat) (l : List (Str × Nat)) :
    (List.orderedInsert cntGe x l).filter (fun p => p.2 == c) =
      ((x :: l).filter (fun p => p.2 == c)) := by
  induction l with
  | nil => rfl
  | cons y t ih =>
    simp only [List.orderedInsert]
    split
    · rfl
    · rename_i hr
      have hxy : x.2 < y.2 := by
        have := fun h => hr h
        unfold cntGe at hr
        omega
      by_cases hx : x.2 = c
      · by_cases hy : y.2 = c
        · omega
        · simp [List.filter_cons, ih, hx, hy]
      · by_cases hy : y.2 = c
        · simp [List.filter_cons, ih, hx, hy]
        · simp [List.filter_cons, ih, hx, hy]

/-- Insertion sort with the descending-count order is stable: filtering
a fixed count value returns the original subsequence unchanged. -/
theorem filter_insertionSort (c : Nat) (l : List (Str × Nat)) :
    (List.insertionSort cntGe l).filter (fun p => p.2 == c) =
      (l.filter (fun p => p.2 == c)) := by
  induction l with
  | nil => rfl
  | cons x t ih =>
    simp only [List.insertionSort]
    rw [filter_orderedInsert, List.filter_cons, ih, List.filter_cons]

/-- Folding bumps over a tag list visits keys in first-occurrence order:
the key list extends by exactly the unseen tags, left to right. -/
theorem keys_bump_fold_firstSeen (l : List Str) :
    ∀ (d : List (Str × Nat)) (seen : List Str),
    (∀ x, x ∈ seen ↔ x ∈ d.map Prod.fst) →
    (l.foldl (fun d' t => dictBump t d') d).map Prod.fst =
      d.map Prod.fst ++ firstDedupAux seen l := by
  induction l with
  | nil =>
    intro d seen _
    simp [firstDedupAux]
  | cons t rest ih =>
    intro d seen hiff
    simp only [List.foldl_cons, firstDedupAux]
    by_cases ht : t ∈ seen
    · rw [if_pos ht]
      have hkeys : (dictBump t d).map Prod.fst = d.map Prod.fst := by
        rw [keys_dictBump, if_pos ((hiff t).1 ht)]
      rw [ih (dictBump t d) seen (fun x => by rw [hkeys]; exact hiff x), hkeys]
    · rw [if_neg ht]
      have htd : t ∉ d.map Prod.fst := fun hc => ht ((hiff t).2 hc)
      have hkeys : (dictBump t d).map Prod.fst = d.map Prod.fst ++ [t] := by
        rw [keys_dictBump, if_neg htd]
      rw [ih (dictBump t d) (t :: seen) ?_]
      · rw [hkeys, List.append_assoc, List.singleton_append]
      · intro x
        rw [hkeys]
        simp only [List.mem_cons, List.mem_append, List.mem_singleton, hiff x]
        tauto

/-- The counting dict lists its keys in first-encountered order. -/
theorem countTags_keys_firstSeen (records : List (List Str)) :
    (countTags records).map Prod.fst = firstSeenTags records := by
  rw [countTags_eq_flat, firstSeenTags]
  have h := keys_bump_fold_firstSeen records.flatten [] [] (fun x => by simp)
  simpa using h

/-- The tech-stack lists of the spec's top-technologies example: tag
counts a:3, b:3, c:1. -/
def topRecordsExample : List (List Str) :=
  [[("a".toList), ("b".toList)], [("a".toList), ("b".toList)],
   [("a".toList), ("b".toList), ("c".toList)]]

/-- C9: `get_top_technologies` returns at most `n` (tag, count) pairs,
sorted by count descending, each count being the tag's total number of
occurrences across all records; every counted tag left out has a count
no larger than any returned one; and the underlying stable sort keeps
pairs of equal count in the counting dict's insertion order — which is
first-encountered order, as the key-list equation shows. -/
theorem get_top_technologies_spec (records : List (List Str)) (n : Nat) :
    (get_top_technologies records n).Sorted cntGe ∧
    (∀ p ∈ get_top_technologies records n, p.2 = tagCount p.1 records) ∧
    (∀ p ∈ get_top_technologies records n, ∀ q ∈ countTags records,
      q ∉ get_top_technologies records n → q.2 ≤ p.2) ∧
    (∀ c : Nat, (get_top_technologies records n).filter (fun p => p.2 == c) <+:
      (countTags records).filter (fun p => p.2 == c)) ∧
    (countTags records).map Prod.fst = firstSeenTags records ∧
    (get_top_technologies records n).length = min n (countTags records).length := by
  refine ⟨?_, ?_, ?_, ?_, countTags_keys_firstSeen records, ?_⟩
  · unfold get_top_technologies
    exact List.Pairwise.sublist (List.take_sublist n _)
      (List.sorted_insertionSort cntGe (countTags records))
  · intro p hp
    unfold get_top_technologies at hp
    have hs : p ∈ List.insertionSort cntGe (countTags records) := List.mem_of_mem_take hp
    have hc : p ∈ countTags records :=
      (List.perm_insertionSort cntGe (countTags records)).mem_iff.1 hs
    obtain ⟨k, c⟩ := p
    exact countTags_value records hc
  · intro p hp q hq hqn
    unfold get_top_technologies at hp hqn
    have hqs : q ∈ List.insertionSort cntGe (countTags records) :=
      (List.perm_insertionSort cntGe (countTags records)).mem_iff.2 hq
    have hsplit : q ∈ (List.insertionSort cntGe (countTags records)).take n ++
        (List.insertionSort cntGe (countTags records)).drop n := by
      rw [List.take_append_drop]
      exact hqs
    rcases List.mem_append.1 hsplit with h1 | h2
    · exact absurd h1 hqn
    · have hpw : List.Pairwise cntGe ((List.insertionSort cntGe (countTags records)).take n ++
          (List.insertionSort cntGe (countTags records)).drop n) := by
        rw [List.take_append_drop]
        exact List.sorted_insertionSort cntGe (countTags records)
      exact (List.pairwise_append.1 hpw).2.2 p hp q h2
  · intro c
    unfold get_top_technologies
    have h1 := (List.take_prefix n (List.insertionSort cntGe (countTags records))).filter
      (fun p => p.2 == c)
    rw [filter_insertionSort] at h1
    exact h1
  · unfold get_top_technologies
    rw [List.length_take, (List.perm_insertionSort cntGe (countTags records)).length_eq]

/-- C9 witness: over tag counts a:3, b:3, c:1 with n = 2 the result is
a then b, in first-seen order, and a's reported count is its total. -/
theorem get_top_technologies_spec_witness :
    get_top_technologies topRecordsExample 2 = [(("a".toList), 3), (("b".toList), 3)] ∧
    (3 : Nat) = tagCount ("a".toList) topRecordsExample :=
  ⟨by decide,
   (get_top_technologies_spec topRecordsExample 2).2.1 (("a".toList), 3) (by decide)⟩
